import Mathlib

set_option linter.unusedSectionVars false

/-!
Verification of the coarse-grained concurrent hash set
(`src/hash_set_coarse_grained.h`).

The data structure is a bucketed hash table: a vector of buckets (each a
vector of elements), an element counter, and one global mutex.  Since every
public operation holds the single lock for its whole duration, the
observable behaviour of any sequence of operations is exactly the
sequential behaviour, which we embed shallowly here:

  * `table_`    : the bucket array, a `List (List T)`;
  * `set_size_` : the counter, a `Nat` (the C++ `size_t` counter can only
    wrap after more than `2^64` successful insertions, which is unreachable,
    and the single decrement in `Remove` happens only when the set is
    nonempty, so plain `Nat` arithmetic is faithful on all reachable states);
  * `std::hash<T>` : an arbitrary function `hash : T → Nat`, with element
    equality given by decidable equality on `T` (so hash/equality
    consistency holds by construction).

Each Lean definition mirrors one member function of the C++ class.
-/

namespace ConcurrentHashSets

/-- State of `HashSetCoarseGrained<T>`: the bucket array `table_` and the
element counter `set_size_`.  The mutex has no sequential content. -/
structure HashSetCoarseGrained (T : Type) where
  table_ : List (List T)
  set_size_ : Nat

deriving instance DecidableEq for HashSetCoarseGrained

section Model

variable {T : Type} [DecidableEq T] (hash : T → Nat)

/-- The `bucket_capacity_ = 4` threshold constant. -/
def bucket_capacity_ : Nat := 4

/-- The constructor `HashSetCoarseGrained(size_t initial_capacity)`:
member initialisers `set_size_(0), table_(initial_capacity)` build
`initial_capacity` empty buckets.  Note: the source performs no validation
of `initial_capacity` whatsoever. -/
def HashSetCoarseGrained.new (initial_capacity : Nat) : HashSetCoarseGrained T :=
  { table_ := List.replicate initial_capacity [], set_size_ := 0 }

/-- Private `Contains_`: index the bucket at `std::hash<T>()(elem) % table_.size()`
and linearly search it (`std::find ... != end`). -/
def Contains_ (s : HashSetCoarseGrained T) (elem : T) : Bool :=
  let bucket_index := hash elem % s.table_.length
  decide (elem ∈ s.table_.getD bucket_index [])

/-- Private `Policy()`: `set_size_ / table_.size() > bucket_capacity_`
(truncating `size_t` division). -/
def Policy (s : HashSetCoarseGrained T) : Bool :=
  decide (s.set_size_ / s.table_.length > bucket_capacity_)

/-- One `push_back` into the bucket selected by `hash(elem) % table.size()`.
This is the insertion step shared verbatim by `Add` (on `table_`) and by the
copy loop of `Resize` (on `new_table`). -/
def pushBucket (t : List (List T)) (elem : T) : List (List T) :=
  let bucket_index := hash elem % t.length
  t.set bucket_index (t.getD bucket_index [] ++ [elem])

/-- Private `Resize()`: allocate `new_table` with `table_.size() * 2` empty
buckets, copy every element of every bucket (in order) into
`new_table[hash(elem) % new_table.size()]`, then replace `table_`. -/
def Resize (s : HashSetCoarseGrained T) : HashSetCoarseGrained T :=
  let new_size := s.table_.length * 2
  let new_table :=
    s.table_.foldl (fun acc bucket => bucket.foldl (pushBucket hash) acc)
      (List.replicate new_size [])
  { s with table_ := new_table }

/-- State right after the insertion steps of `Add`:
`table_[bucket_index].push_back(elem)` followed by `set_size_.fetch_add(1)`. -/
def addInsert (s : HashSetCoarseGrained T) (elem : T) : HashSetCoarseGrained T :=
  { table_ := pushBucket hash s.table_ elem, set_size_ := s.set_size_ + 1 }

/-- Public `Add`: return `false` if `Contains_(elem)`; otherwise push the
element into `table_[hash(elem) % table_.size()]`, `fetch_add(1)` the
counter, run `Resize()` if `Policy()` holds, and return `true`.
Result is `(returned bool, state after the call)`. -/
def Add (s : HashSetCoarseGrained T) (elem : T) : Bool × HashSetCoarseGrained T :=
  if Contains_ hash s elem then (false, s)
  else if Policy (addInsert hash s elem) then (true, Resize hash (addInsert hash s elem))
  else (true, addInsert hash s elem)

/-- Public `Remove`: return `false` if `!Contains_(elem)`; otherwise run the
erase-remove idiom on the bucket at `hash(elem) % table_.size()` (which
erases every element equal to `elem`) and `fetch_sub(1)` the counter. -/
def Remove (s : HashSetCoarseGrained T) (elem : T) : Bool × HashSetCoarseGrained T :=
  if !Contains_ hash s elem then (false, s)
  else
    let bucket_index := hash elem % s.table_.length
    let bucket := s.table_.getD bucket_index []
    (true,
      { table_ := s.table_.set bucket_index (bucket.filter (fun b => b ≠ elem)),
        set_size_ := s.set_size_ - 1 })

/-- Public `Contains`: takes the lock and calls `Contains_`. -/
def Contains (s : HashSetCoarseGrained T) (elem : T) : Bool :=
  Contains_ hash s elem

/-- Public `Size()`: `set_size_.load()`. -/
def Size (s : HashSetCoarseGrained T) : Nat :=
  s.set_size_

/-! ### Single-thread operation sequences -/

/-- A mutating operation of the public interface. -/
inductive Op (T : Type) where
  | add : T → Op T
  | remove : T → Op T
deriving DecidableEq

/-- Apply one operation to a state (discarding the returned boolean). -/
def stepOp (s : HashSetCoarseGrained T) (op : Op T) : HashSetCoarseGrained T :=
  match op with
  | .add x => (Add hash s x).2
  | .remove x => (Remove hash s x).2

/-- Run a sequence of operations from a state. -/
def run (s : HashSetCoarseGrained T) (ops : List (Op T)) : HashSetCoarseGrained T :=
  ops.foldl (stepOp hash) s

/-- States reachable from a valid construction (positive initial capacity)
by some sequence of public operations. -/
def Reachable (s : HashSetCoarseGrained T) : Prop :=
  ∃ c ops, 0 < c ∧ run hash (HashSetCoarseGrained.new c) ops = s

/-! ### Abstraction and invariants -/

/-- Multiset of all elements stored across a bucket array. -/
def msum (l : List (List T)) : Multiset T :=
  (l.map (fun b => (b : Multiset T))).sum

/-- Multiset of all elements stored in the set. -/
def elems (s : HashSetCoarseGrained T) : Multiset T :=
  msum s.table_

/-- Bucket-placement invariant of a bucket array: every element lies in the
bucket indexed by its hash modulo the current number of buckets. -/
def Placed (t : List (List T)) : Prop :=
  ∀ i (h : i < t.length), ∀ e ∈ t[i], hash e % t.length = i

/-- Data-model invariant of the set (holds in every reachable state):
positive capacity, correct bucket placement, no duplicate elements, and the
counter equal to the number of stored elements. -/
structure Inv (s : HashSetCoarseGrained T) : Prop where
  posCap : 0 < s.table_.length
  placed : Placed hash s.table_
  nodup : (elems s).Nodup
  sizeEq : s.set_size_ = Multiset.card (elems s)

/-- Modelled from the spec (testable property "Membership correctness"):
whether, starting from membership status `b`, the net effect of the
operation sequence leaves `x` in the set — i.e. the last `Add`/`Remove`
mentioning `x` is an `Add`. -/
def specNetMemberFrom (b : Bool) (ops : List (Op T)) (x : T) : Bool :=
  ops.foldl
    (fun acc op =>
      match op with
      | .add y => if y = x then true else acc
      | .remove y => if y = x then false else acc) b

/-- Modelled from the spec: `x` has a net-positive `Add` without a matching
later `Remove` in the sequence. -/
def specNetMember (ops : List (Op T)) (x : T) : Bool :=
  specNetMemberFrom false ops x

end Model

section Lemmas

variable {T : Type} [DecidableEq T] (hash : T → Nat)

theorem msum_nil : msum ([] : List (List T)) = 0 := rfl

theorem msum_cons (b : List T) (t : List (List T)) :
    msum (b :: t) = (b : Multiset T) + msum t := by
  simp [msum]

theorem msum_replicate_nil (n : Nat) :
    msum (List.replicate n ([] : List T)) = 0 := by
  induction n with
  | zero => rfl
  | succ k ih => simp [List.replicate, msum_cons, ih]

theorem mem_msum {x : T} {l : List (List T)} :
    x ∈ msum l ↔ ∃ b ∈ l, x ∈ b := by
  induction l with
  | nil => simp [msum]
  | cons hd tl ih => simp [msum_cons, ih]

theorem card_msum (l : List (List T)) :
    Multiset.card (msum l) = (l.map List.length).sum := by
  induction l with
  | nil => rfl
  | cons hd tl ih => simp [msum_cons, ih]

theorem msum_set (l : List (List T)) (i : Nat) (b : List T) (h : i < l.length) :
    msum (l.set i b) + (l.getD i [] : Multiset T) = msum l + (b : Multiset T) := by
  induction l generalizing i with
  | nil => simp at h
  | cons hd tl ih =>
    cases i with
    | zero =>
      simp only [List.set, msum_cons, List.getD_cons_zero]
      abel
    | succ n =>
      have hn : n < tl.length := by simpa using h
      simp only [List.set, msum_cons, List.getD_cons_succ]
      rw [add_assoc, add_assoc, ih n hn]

theorem pushBucket_length (t : List (List T)) (e : T) :
    (pushBucket hash t e).length = t.length := by
  simp [pushBucket]

theorem msum_pushBucket (t : List (List T)) (e : T) (h : 0 < t.length) :
    msum (pushBucket hash t e) = msum t + {e} := by
  have hi : hash e % t.length < t.length := Nat.mod_lt _ h
  have hset := msum_set (l := t) (i := hash e % t.length)
    (b := t.getD (hash e % t.length) [] ++ [e]) hi
  have hco : ((t.getD (hash e % t.length) [] ++ [e] : List T) : Multiset T)
      = (t.getD (hash e % t.length) [] : Multiset T) + {e} := by
    rw [← Multiset.coe_add, Multiset.coe_singleton]
  rw [hco] at hset
  have : msum (pushBucket hash t e) + (t.getD (hash e % t.length) [] : Multiset T)
      = (msum t + {e}) + (t.getD (hash e % t.length) [] : Multiset T) := by
    rw [pushBucket]
    rw [hset]
    abel
  exact add_right_cancel this

theorem placed_replicate (n : Nat) :
    Placed hash (List.replicate n ([] : List T)) := by
  intro i h e he
  rw [List.getElem_replicate] at he
  exact absurd he (List.not_mem_nil e)

theorem placed_pushBucket (t : List (List T)) (e : T) (hp : Placed hash t) :
    Placed hash (pushBucket hash t e) := by
  intro i h x hx
  have hit : i < t.length := (pushBucket_length hash t e) ▸ h
  have hx' : x ∈ (t.set (hash e % t.length)
      (t.getD (hash e % t.length) [] ++ [e]))[i] := hx
  rw [List.getElem_set] at hx'
  by_cases hcase : hash e % t.length = i
  · rw [if_pos hcase] at hx'
    rcases List.mem_append.mp hx' with hx2 | hx2
    · have hbd : hash e % t.length < t.length := hcase ▸ hit
      rw [List.getD_eq_getElem _ _ hbd] at hx2
      have hplace := hp (hash e % t.length) hbd x hx2
      rw [pushBucket_length]
      exact hplace.trans hcase
    · have hxe : x = e := List.mem_singleton.mp hx2
      rw [pushBucket_length, hxe]
      exact hcase
  · rw [if_neg hcase] at hx'
    rw [pushBucket_length]
    exact hp i hit x hx'

theorem foldl_pushBucket_length (es : List T) (acc : List (List T)) :
    (es.foldl (pushBucket hash) acc).length = acc.length := by
  induction es generalizing acc with
  | nil => rfl
  | cons e es ih => rw [List.foldl_cons, ih, pushBucket_length]

theorem foldl2_pushBucket_length (bs : List (List T)) (acc : List (List T)) :
    (bs.foldl (fun a b => b.foldl (pushBucket hash) a) acc).length = acc.length := by
  induction bs generalizing acc with
  | nil => rfl
  | cons b bs ih => rw [List.foldl_cons, ih, foldl_pushBucket_length]

theorem msum_foldl_pushBucket (es : List T) (acc : List (List T)) (h : 0 < acc.length) :
    msum (es.foldl (pushBucket hash) acc) = msum acc + (es : Multiset T) := by
  induction es generalizing acc with
  | nil => simp
  | cons e es ih =>
    rw [List.foldl_cons, ih (pushBucket hash acc e) (by rw [pushBucket_length]; exact h),
      msum_pushBucket hash acc e h, ← Multiset.cons_coe, ← Multiset.singleton_add]
    abel

theorem msum_foldl2_pushBucket (bs : List (List T)) (acc : List (List T)) (h : 0 < acc.length) :
    msum (bs.foldl (fun a b => b.foldl (pushBucket hash) a) acc) = msum acc + msum bs := by
  induction bs generalizing acc with
  | nil => simp [msum_nil]
  | cons b bs ih =>
    rw [List.foldl_cons, ih (b.foldl (pushBucket hash) acc)
        (by rw [foldl_pushBucket_length]; exact h),
      msum_foldl_pushBucket hash b acc h, msum_cons]
    abel

theorem placed_foldl_pushBucket (es : List T) (acc : List (List T)) (hp : Placed hash acc) :
    Placed hash (es.foldl (pushBucket hash) acc) := by
  induction es generalizing acc with
  | nil => exact hp
  | cons e es ih => exact List.foldl_cons _ _ ▸ ih _ (placed_pushBucket hash acc e hp)

theorem placed_foldl2_pushBucket (bs : List (List T)) (acc : List (List T))
    (hp : Placed hash acc) :
    Placed hash (bs.foldl (fun a b => b.foldl (pushBucket hash) a) acc) := by
  induction bs generalizing acc with
  | nil => exact hp
  | cons b bs ih => exact List.foldl_cons _ _ ▸ ih _ (placed_foldl_pushBucket hash b acc hp)

theorem Resize_set_size (s : HashSetCoarseGrained T) :
    (Resize hash s).set_size_ = s.set_size_ := rfl

theorem Resize_length (s : HashSetCoarseGrained T) :
    (Resize hash s).table_.length = s.table_.length * 2 := by
  rw [Resize]
  simp only [foldl2_pushBucket_length, List.length_replicate]

theorem Resize_elems (s : HashSetCoarseGrained T) (h : 0 < s.table_.length) :
    elems (Resize hash s) = elems s := by
  rw [elems, elems, Resize]
  simp only
  rw [msum_foldl2_pushBucket hash s.table_ _
    (by rw [List.length_replicate]; omega), msum_replicate_nil, zero_add]

theorem Resize_placed (s : HashSetCoarseGrained T) :
    Placed hash (Resize hash s).table_ := by
  rw [Resize]
  exact placed_foldl2_pushBucket hash s.table_ _
    (placed_replicate hash (s.table_.length * 2))

theorem Contains_iff_mem (s : HashSetCoarseGrained T) (x : T)
    (hpos : 0 < s.table_.length) (hp : Placed hash s.table_) :
    Contains_ hash s x = true ↔ x ∈ elems s := by
  have hi : hash x % s.table_.length < s.table_.length := Nat.mod_lt _ hpos
  rw [Contains_]
  simp only [decide_eq_true_eq]
  rw [List.getD_eq_getElem _ _ hi]
  constructor
  · intro hx
    exact mem_msum.mpr ⟨_, List.getElem_mem hi, hx⟩
  · intro hx
    rcases mem_msum.mp hx with ⟨b, hb, hxb⟩
    rcases List.mem_iff_getElem.mp hb with ⟨j, hj, rfl⟩
    have hplace := hp j hj x hxb
    subst hplace
    exact hxb

theorem Contains_eq_false_iff (s : HashSetCoarseGrained T) (x : T)
    (hpos : 0 < s.table_.length) (hp : Placed hash s.table_) :
    Contains_ hash s x = false ↔ x ∉ elems s := by
  rw [← Contains_iff_mem hash s x hpos hp, Bool.eq_false_iff]

theorem getD_replicate_nil (c i : Nat) :
    (List.replicate c ([] : List T)).getD i [] = [] := by
  by_cases h : i < c
  · rw [List.getD_eq_getElem _ _ (by simpa using h), List.getElem_replicate]
  · rw [List.getD_eq_default _ _ (by simpa using Nat.le_of_not_lt h)]

theorem Contains_new (c : Nat) (x : T) :
    Contains_ hash (HashSetCoarseGrained.new c) x = false := by
  rw [Contains_, HashSetCoarseGrained.new]
  simp [getD_replicate_nil]

theorem elems_new (c : Nat) :
    elems (HashSetCoarseGrained.new (T := T) c) = 0 :=
  msum_replicate_nil c

theorem Inv_new (c : Nat) (hc : 0 < c) :
    Inv hash (HashSetCoarseGrained.new (T := T) c) := by
  refine ⟨?_, ?_, ?_, ?_⟩
  · simpa [HashSetCoarseGrained.new] using hc
  · exact placed_replicate hash c
  · rw [elems_new]
    exact Multiset.nodup_zero
  · rw [elems_new]
    rfl

theorem Inv_Resize (s : HashSetCoarseGrained T) (hInv : Inv hash s) :
    Inv hash (Resize hash s) := by
  refine ⟨?_, Resize_placed hash s, ?_, ?_⟩
  · rw [Resize_length]
    have := hInv.posCap
    omega
  · rw [Resize_elems hash s hInv.posCap]
    exact hInv.nodup
  · rw [Resize_set_size, Resize_elems hash s hInv.posCap]
    exact hInv.sizeEq

theorem addInsert_length (s : HashSetCoarseGrained T) (x : T) :
    (addInsert hash s x).table_.length = s.table_.length :=
  pushBucket_length hash s.table_ x

theorem addInsert_set_size (s : HashSetCoarseGrained T) (x : T) :
    (addInsert hash s x).set_size_ = s.set_size_ + 1 := rfl

theorem addInsert_elems (s : HashSetCoarseGrained T) (x : T) (h : 0 < s.table_.length) :
    elems (addInsert hash s x) = elems s + {x} :=
  msum_pushBucket hash s.table_ x h

theorem Inv_addInsert (s : HashSetCoarseGrained T) (x : T) (hInv : Inv hash s)
    (hnm : x ∉ elems s) : Inv hash (addInsert hash s x) := by
  refine ⟨?_, placed_pushBucket hash s.table_ x hInv.placed, ?_, ?_⟩
  · rw [addInsert_length]
    exact hInv.posCap
  · rw [addInsert_elems hash s x hInv.posCap, add_comm, Multiset.singleton_add]
    exact Multiset.nodup_cons.mpr ⟨hnm, hInv.nodup⟩
  · rw [addInsert_set_size, addInsert_elems hash s x hInv.posCap]
    simp [hInv.sizeEq]

theorem Policy_addInsert (s : HashSetCoarseGrained T) (x : T) :
    Policy (addInsert hash s x)
      = decide ((s.set_size_ + 1) / s.table_.length > bucket_capacity_) := by
  rw [Policy, addInsert_set_size, addInsert_length]

theorem Add_present (s : HashSetCoarseGrained T) (x : T)
    (h : Contains_ hash s x = true) :
    Add hash s x = (false, s) := by
  rw [Add, if_pos h]

theorem Add_absent (s : HashSetCoarseGrained T) (x : T) (hInv : Inv hash s)
    (h : Contains_ hash s x = false) :
    (Add hash s x).1 = true
    ∧ (Add hash s x).2.set_size_ = s.set_size_ + 1
    ∧ elems (Add hash s x).2 = elems s + {x}
    ∧ Inv hash (Add hash s x).2
    ∧ (Add hash s x).2.table_.length
        = (if (s.set_size_ + 1) / s.table_.length > bucket_capacity_
           then s.table_.length * 2 else s.table_.length) := by
  have hnm : x ∉ elems s := (Contains_eq_false_iff hash s x hInv.posCap hInv.placed).mp h
  have hInv1 : Inv hash (addInsert hash s x) := Inv_addInsert hash s x hInv hnm
  have hpos1 : 0 < (addInsert hash s x).table_.length := hInv1.posCap
  have hAdd : Add hash s x
      = if Policy (addInsert hash s x) then (true, Resize hash (addInsert hash s x))
        else (true, addInsert hash s x) := by
    rw [Add, if_neg (by simp [h])]
  by_cases hp : Policy (addInsert hash s x) = true
  · have hcond : (s.set_size_ + 1) / s.table_.length > bucket_capacity_ := by
      rw [Policy_addInsert] at hp
      exact of_decide_eq_true hp
    rw [hAdd, if_pos hp]
    refine ⟨rfl, ?_, ?_, ?_, ?_⟩
    · show (Resize hash (addInsert hash s x)).set_size_ = _
      rw [Resize_set_size, addInsert_set_size]
    · show elems (Resize hash (addInsert hash s x)) = _
      rw [Resize_elems hash _ hpos1, addInsert_elems hash s x hInv.posCap]
    · exact Inv_Resize hash _ hInv1
    · show (Resize hash (addInsert hash s x)).table_.length = _
      rw [Resize_length, addInsert_length, if_pos hcond]
  · have hcond : ¬ (s.set_size_ + 1) / s.table_.length > bucket_capacity_ := by
      rw [Policy_addInsert] at hp
      simpa using hp
    rw [hAdd, if_neg hp]
    refine ⟨rfl, rfl, ?_, hInv1, ?_⟩
    · exact addInsert_elems hash s x hInv.posCap
    · show (addInsert hash s x).table_.length = _
      rw [addInsert_length, if_neg hcond]

theorem bucket_nodup (l : List (List T)) (h : (msum l).Nodup) :
    ∀ b ∈ l, b.Nodup := by
  induction l with
  | nil => simp
  | cons hd tl ih =>
    rw [msum_cons, Multiset.nodup_add] at h
    intro b hb
    rcases List.mem_cons.mp hb with rfl | hb
    · exact Multiset.coe_nodup.mp h.1
    · exact ih h.2.1 b hb

theorem coe_filter_ne_add_singleton (l : List T) (x : T) (hl : l.Nodup) (hx : x ∈ l) :
    ((l.filter (fun b => b ≠ x) : List T) : Multiset T) + {x} = (l : Multiset T) := by
  induction l with
  | nil => simp at hx
  | cons hd tl ih =>
    rcases List.nodup_cons.mp hl with ⟨hhd, htl⟩
    by_cases hhx : hd = x
    · subst hhx
      have hfil : tl.filter (fun b => b ≠ hd) = tl :=
        List.filter_eq_self.mpr (fun a ha => by
          simp only [decide_eq_true_eq]
          exact fun hcon => hhd (hcon ▸ ha))
      rw [List.filter_cons_of_neg (by simp), hfil, ← Multiset.cons_coe,
        add_comm, Multiset.singleton_add]
    · have hxtl : x ∈ tl := by
        rcases List.mem_cons.mp hx with rfl | hxtl
        · exact absurd rfl hhx
        · exact hxtl
      rw [List.filter_cons_of_pos (by simp [hhx]), ← Multiset.cons_coe,
        ← Multiset.cons_coe, Multiset.cons_add, ih htl hxtl]

theorem placed_set_subset (t : List (List T)) (i : Nat) (b' : List T)
    (hi : i < t.length) (hsub : ∀ y ∈ b', y ∈ t[i]) (hp : Placed hash t) :
    Placed hash (t.set i b') := by
  intro j hj y hy
  have hjt : j < t.length := (List.length_set t i b') ▸ hj
  rw [List.getElem_set] at hy
  rw [List.length_set]
  by_cases hij : i = j
  · rw [if_pos hij] at hy
    exact (hp i hi y (hsub y hy)).trans hij
  · rw [if_neg hij] at hy
    exact hp j hjt y hy

theorem Remove_absent (s : HashSetCoarseGrained T) (x : T)
    (h : Contains_ hash s x = false) :
    Remove hash s x = (false, s) := by
  rw [Remove, if_pos (by simp [h])]

theorem Remove_present (s : HashSetCoarseGrained T) (x : T) (hInv : Inv hash s)
    (h : Contains_ hash s x = true) :
    (Remove hash s x).1 = true
    ∧ (Remove hash s x).2.set_size_ = s.set_size_ - 1
    ∧ elems (Remove hash s x).2 + {x} = elems s
    ∧ elems (Remove hash s x).2 = (elems s).erase x
    ∧ (Remove hash s x).2.table_.length = s.table_.length
    ∧ Inv hash (Remove hash s x).2 := by
  set i := hash x % s.table_.length with hidef
  have hi : i < s.table_.length := Nat.mod_lt _ hInv.posCap
  set bkt := s.table_.getD i [] with hbdef
  set filt := bkt.filter (fun b => b ≠ x) with hfdef
  have hxbkt : x ∈ bkt := by
    have hx0 : x ∈ s.table_.getD (hash x % s.table_.length) [] := by
      rw [Contains_] at h
      exact of_decide_eq_true h
    rw [hbdef, hidef]
    exact hx0
  have hbktnd : bkt.Nodup := by
    rw [hbdef, List.getD_eq_getElem _ _ hi]
    exact bucket_nodup s.table_ hInv.nodup _ (List.getElem_mem hi)
  have hfil : (filt : Multiset T) + {x} = (bkt : Multiset T) :=
    coe_filter_ne_add_singleton bkt x hbktnd hxbkt
  have hRem : Remove hash s x
      = (true, { table_ := s.table_.set i filt, set_size_ := s.set_size_ - 1 }) := by
    rw [Remove, if_neg (by simp [h])]
  have hset : msum (s.table_.set i filt) + (bkt : Multiset T)
      = msum s.table_ + (filt : Multiset T) := msum_set s.table_ i filt hi
  have habs : elems (Remove hash s x).2 + {x} = elems s := by
    rw [hRem]
    show msum (s.table_.set i filt) + {x} = msum s.table_
    have hc : (msum (s.table_.set i filt) + {x}) + (filt : Multiset T)
        = msum s.table_ + (filt : Multiset T) := by
      calc (msum (s.table_.set i filt) + {x}) + (filt : Multiset T)
          = msum (s.table_.set i filt) + (bkt : Multiset T) := by
            rw [← hfil]
            abel
        _ = msum s.table_ + (filt : Multiset T) := hset
    exact add_right_cancel hc
  have herase : elems (Remove hash s x).2 = (elems s).erase x := by
    have hM : elems s = x ::ₘ elems (Remove hash s x).2 := by
      rw [← habs, add_comm, Multiset.singleton_add]
    rw [hM, Multiset.erase_cons_head]
  have hcard : Multiset.card (elems (Remove hash s x).2) + 1
      = Multiset.card (elems s) := by
    rw [← habs]
    simp
  refine ⟨by rw [hRem], by rw [hRem], habs, herase, ?_, ?_⟩
  · rw [hRem]
    show (s.table_.set i filt).length = s.table_.length
    exact List.length_set s.table_ i filt
  · refine ⟨?_, ?_, ?_, ?_⟩
    · rw [hRem]
      show 0 < (s.table_.set i filt).length
      rw [List.length_set]
      exact hInv.posCap
    · rw [hRem]
      show Placed hash (s.table_.set i filt)
      refine placed_set_subset hash s.table_ i filt hi ?_ hInv.placed
      intro y hy
      have hyb : y ∈ bkt := List.mem_of_mem_filter hy
      rw [hbdef, List.getD_eq_getElem _ _ hi] at hyb
      exact hyb
    · exact Multiset.nodup_of_le (habs ▸ Multiset.le_add_right _ _) hInv.nodup
    · have h1 : (Remove hash s x).2.set_size_ = s.set_size_ - 1 := by rw [hRem]
      have hsz := hInv.sizeEq
      omega

theorem Inv_Add (s : HashSetCoarseGrained T) (x : T) (hInv : Inv hash s) :
    Inv hash (Add hash s x).2 := by
  cases hc : Contains_ hash s x with
  | false => exact (Add_absent hash s x hInv hc).2.2.2.1
  | true =>
    rw [Add_present hash s x hc]
    exact hInv

theorem Inv_Remove (s : HashSetCoarseGrained T) (x : T) (hInv : Inv hash s) :
    Inv hash (Remove hash s x).2 := by
  cases hc : Contains_ hash s x with
  | false =>
    rw [Remove_absent hash s x hc]
    exact hInv
  | true => exact (Remove_present hash s x hInv hc).2.2.2.2.2

theorem Inv_stepOp (s : HashSetCoarseGrained T) (op : Op T) (hInv : Inv hash s) :
    Inv hash (stepOp hash s op) := by
  cases op with
  | add x => exact Inv_Add hash s x hInv
  | remove x => exact Inv_Remove hash s x hInv

theorem run_nil (s : HashSetCoarseGrained T) : run hash s [] = s := rfl

theorem run_cons (s : HashSetCoarseGrained T) (op : Op T) (ops : List (Op T)) :
    run hash s (op :: ops) = run hash (stepOp hash s op) ops := rfl

theorem run_append (s : HashSetCoarseGrained T) (ops₁ ops₂ : List (Op T)) :
    run hash s (ops₁ ++ ops₂) = run hash (run hash s ops₁) ops₂ := by
  rw [run, run, run, List.foldl_append]

theorem Inv_run (ops : List (Op T)) (s : HashSetCoarseGrained T) (hInv : Inv hash s) :
    Inv hash (run hash s ops) := by
  induction ops generalizing s with
  | nil => exact hInv
  | cons op ops ih => exact ih _ (Inv_stepOp hash s op hInv)

theorem Reachable_Inv (s : HashSetCoarseGrained T) (h : Reachable hash s) :
    Inv hash s := by
  rcases h with ⟨c, ops, hc, rfl⟩
  exact Inv_run hash ops _ (Inv_new hash c hc)

theorem Contains_Add (s : HashSetCoarseGrained T) (x y : T) (hInv : Inv hash s) :
    Contains_ hash (Add hash s y).2 x = (if y = x then true else Contains_ hash s x) := by
  cases hc : Contains_ hash s y with
  | true =>
    rw [Add_present hash s y hc]
    by_cases hyx : y = x
    · rw [if_pos hyx]
      rw [← hyx]
      exact hc
    · rw [if_neg hyx]
  | false =>
    obtain ⟨h1, h2, h3, hInv2, h5⟩ := Add_absent hash s y hInv hc
    have hiff := Contains_iff_mem hash (Add hash s y).2 x hInv2.posCap hInv2.placed
    rw [h3] at hiff
    have hiffs := Contains_iff_mem hash s x hInv.posCap hInv.placed
    by_cases hyx : y = x
    · rw [if_pos hyx]
      exact hiff.mpr (Multiset.mem_add.mpr (Or.inr (Multiset.mem_singleton.mpr hyx.symm)))
    · rw [if_neg hyx]
      refine Bool.eq_iff_iff.mpr ?_
      rw [hiff, hiffs, Multiset.mem_add]
      constructor
      · intro hm
        rcases hm with hm | hm
        · exact hm
        · exact absurd (Multiset.mem_singleton.mp hm).symm hyx
      · exact Or.inl

theorem Contains_Remove (s : HashSetCoarseGrained T) (x y : T) (hInv : Inv hash s) :
    Contains_ hash (Remove hash s y).2 x = (if y = x then false else Contains_ hash s x) := by
  cases hc : Contains_ hash s y with
  | false =>
    rw [Remove_absent hash s y hc]
    by_cases hyx : y = x
    · rw [if_pos hyx]
      rw [← hyx]
      exact hc
    · rw [if_neg hyx]
  | true =>
    obtain ⟨h1, h2, h3, h4, h5, hInv2⟩ := Remove_present hash s y hInv hc
    have hiff := Contains_iff_mem hash (Remove hash s y).2 x hInv2.posCap hInv2.placed
    rw [h4] at hiff
    have hiffs := Contains_iff_mem hash s x hInv.posCap hInv.placed
    rw [Multiset.Nodup.mem_erase_iff hInv.nodup] at hiff
    by_cases hyx : y = x
    · rw [if_pos hyx]
      refine Bool.eq_false_iff.mpr (fun hcon => ?_)
      exact absurd hyx.symm (hiff.mp hcon).1
    · rw [if_neg hyx]
      refine Bool.eq_iff_iff.mpr ?_
      rw [hiff, hiffs]
      exact ⟨fun hm => hm.2, fun hm => ⟨fun hcon => hyx hcon.symm, hm⟩⟩

theorem Contains_run (ops : List (Op T)) (s : HashSetCoarseGrained T) (x : T)
    (hInv : Inv hash s) :
    Contains_ hash (run hash s ops) x
      = specNetMemberFrom (Contains_ hash s x) ops x := by
  induction ops generalizing s with
  | nil => rfl
  | cons op ops ih =>
    cases op with
    | add y =>
      rw [run_cons]
      have hrec := ih (stepOp hash s (.add y)) (Inv_stepOp hash s (.add y) hInv)
      rw [hrec]
      show specNetMemberFrom (Contains_ hash (Add hash s y).2 x) ops x
        = specNetMemberFrom (if y = x then true else Contains_ hash s x) ops x
      rw [Contains_Add hash s x y hInv]
    | remove y =>
      rw [run_cons]
      have hrec := ih (stepOp hash s (.remove y)) (Inv_stepOp hash s (.remove y) hInv)
      rw [hrec]
      show specNetMemberFrom (Contains_ hash (Remove hash s y).2 x) ops x
        = specNetMemberFrom (if y = x then false else Contains_ hash s x) ops x
      rw [Contains_Remove hash s x y hInv]

theorem stepOp_length_le (s : HashSetCoarseGrained T) (op : Op T) :
    s.table_.length ≤ (stepOp hash s op).table_.length := by
  cases op with
  | add y =>
    show s.table_.length ≤ (Add hash s y).2.table_.length
    cases hc : Contains_ hash s y with
    | true => rw [Add_present hash s y hc]
    | false =>
      rw [Add, if_neg (by simp [hc])]
      by_cases hp : Policy (addInsert hash s y) = true
      · rw [if_pos hp]
        show s.table_.length ≤ (Resize hash (addInsert hash s y)).table_.length
        rw [Resize_length, addInsert_length]
        omega
      · rw [if_neg hp]
        show s.table_.length ≤ (addInsert hash s y).table_.length
        rw [addInsert_length]
  | remove y =>
    show s.table_.length ≤ (Remove hash s y).2.table_.length
    cases hc : Contains_ hash s y with
    | false => rw [Remove_absent hash s y hc]
    | true =>
      rw [Remove, if_neg (by simp [hc])]
      show s.table_.length ≤ (s.table_.set _ _).length
      rw [List.length_set]

theorem run_length_le (ops : List (Op T)) (s : HashSetCoarseGrained T) :
    s.table_.length ≤ (run hash s ops).table_.length := by
  induction ops generalizing s with
  | nil => exact Nat.le_refl _
  | cons op ops ih =>
    rw [run_cons]
    exact (stepOp_length_le hash s op).trans (ih (stepOp hash s op))

theorem size_eq_sum_lengths (s : HashSetCoarseGrained T) (hInv : Inv hash s) :
    s.set_size_ = (s.table_.map List.length).sum := by
  rw [hInv.sizeEq, elems, card_msum]

end Lemmas

section Claims

variable {T : Type} [DecidableEq T] (hash : T → Nat)

/-- Claim C1: for every sequence of `Add`/`Remove` operations executed on a
single thread starting from a freshly constructed set (positive capacity),
`Contains x` returns `true` iff `x` has been added and not removed since its
last addition — the net effect of the sequence leaves `x` in the set. -/
theorem C1_membership_correctness (c : Nat) (hc : 0 < c) (ops : List (Op T)) (x : T) :
    Contains hash (run hash (HashSetCoarseGrained.new c) ops) x
      = specNetMember ops x := by
  rw [Contains, specNetMember, Contains_run hash ops _ x (Inv_new hash c hc),
    Contains_new]

theorem C1_witness : (0 : Nat) < 2
    ∧ Contains (fun n => n)
        (run (fun n => n) (HashSetCoarseGrained.new 2)
          [Op.add 5, Op.add 7, Op.remove 5]) 7
      = specNetMember [Op.add 5, Op.add 7, Op.remove 5] 7 :=
  ⟨by decide, C1_membership_correctness (fun n => n) 2 (by decide)
    [Op.add 5, Op.add 7, Op.remove 5] 7⟩

/-- Claim C2: `Add` contract on any state satisfying the data-model
invariant.  If `elem` is already present, `Add` returns `false` and leaves
the entire state unchanged.  Otherwise it returns `true`, increments the
size counter by exactly one, adds exactly one copy of `elem` to the stored
elements, leaves `elem` findable in the bucket at `hash(elem) mod capacity`
(that is exactly what `Contains_` inspects), and the capacity either stays
or doubles (resize policy evaluated before returning).  A second `Add` of
the same element returns `false` and leaves `Size` unchanged. -/
theorem C2_add_contract (s : HashSetCoarseGrained T) (x : T) (hInv : Inv hash s) :
    (Contains_ hash s x = true → Add hash s x = (false, s))
    ∧ (Contains_ hash s x = false →
        (Add hash s x).1 = true
        ∧ Size (Add hash s x).2 = Size s + 1
        ∧ Contains_ hash (Add hash s x).2 x = true
        ∧ elems (Add hash s x).2 = elems s + {x}
        ∧ ((Add hash s x).2.table_.length = s.table_.length
            ∨ (Add hash s x).2.table_.length = s.table_.length * 2)
        ∧ Add hash (Add hash s x).2 x = (false, (Add hash s x).2)
        ∧ Size (Add hash (Add hash s x).2 x).2 = Size (Add hash s x).2) := by
  constructor
  · exact Add_present hash s x
  · intro hc
    obtain ⟨h1, h2, h3, hInv2, h5⟩ := Add_absent hash s x hInv hc
    have hcont : Contains_ hash (Add hash s x).2 x = true := by
      rw [Contains_iff_mem hash _ x hInv2.posCap hInv2.placed, h3]
      exact Multiset.mem_add.mpr (Or.inr (Multiset.mem_singleton.mpr rfl))
    have hsecond : Add hash (Add hash s x).2 x = (false, (Add hash s x).2) :=
      Add_present hash _ x hcont
    refine ⟨h1, h2, hcont, h3, ?_, hsecond, by rw [hsecond]⟩
    by_cases hcond : (s.set_size_ + 1) / s.table_.length > bucket_capacity_
    · right
      rw [h5, if_pos hcond]
    · left
      rw [h5, if_neg hcond]

theorem C2_witness : Inv (fun n => n) (HashSetCoarseGrained.new 2)
    ∧ (Add (fun n => n) (HashSetCoarseGrained.new 2) 5).1 = true :=
  ⟨Inv_new (fun n => n) 2 (by decide),
    ((C2_add_contract (fun n => n) (HashSetCoarseGrained.new 2) 5
      (Inv_new (fun n => n) 2 (by decide))).2 rfl).1⟩

/-- Claim C3: `Remove` contract on any state satisfying the data-model
invariant.  If `elem` is absent, `Remove` returns `false` and leaves the
state unchanged (in particular `Remove` on a fresh set returns `false`).
Otherwise it returns `true`, removes exactly the one stored copy of `elem`
(`elem` no longer found afterwards), decrements the size counter by exactly
one, and never changes the capacity. -/
theorem C3_remove_contract (s : HashSetCoarseGrained T) (x : T) (hInv : Inv hash s) :
    (Contains_ hash s x = false → Remove hash s x = (false, s))
    ∧ (Contains_ hash s x = true →
        (Remove hash s x).1 = true
        ∧ Size (Remove hash s x).2 = Size s - 1
        ∧ elems (Remove hash s x).2 = (elems s).erase x
        ∧ Contains_ hash (Remove hash s x).2 x = false
        ∧ (Remove hash s x).2.table_.length = s.table_.length) := by
  constructor
  · exact Remove_absent hash s x
  · intro hc
    obtain ⟨h1, h2, h3, h4, h5, hInv2⟩ := Remove_present hash s x hInv hc
    have hgone : Contains_ hash (Remove hash s x).2 x = false := by
      rw [Contains_Remove hash s x x hInv, if_pos rfl]
    exact ⟨h1, h2, h4, hgone, h5⟩

theorem C3_witness : Inv (fun n => n) (HashSetCoarseGrained.new 3)
    ∧ Remove (fun n => n) (HashSetCoarseGrained.new 3) 7
        = (false, HashSetCoarseGrained.new 3)
    ∧ Size (HashSetCoarseGrained.new (T := Nat) 3) = 0 :=
  ⟨Inv_new (fun n => n) 3 (by decide),
    (C3_remove_contract (fun n => n) (HashSetCoarseGrained.new 3) 7
      (Inv_new (fun n => n) 3 (by decide))).1 rfl,
    rfl⟩

/-- Claim C4: resize policy.  For a successful `Add` on an invariant state,
the capacity doubles during that `Add` iff, after the size increment,
`(size) / capacity > 4` under truncating natural-number division.  A resize
always produces a bucket array of exactly `2 × capacity` buckets, keeps the
multiset of stored elements unchanged, and places every element in the
bucket `hash(elem) mod new_capacity`. -/
theorem C4_resize_policy (s : HashSetCoarseGrained T) (x : T) (hInv : Inv hash s)
    (hc : Contains_ hash s x = false) :
    ((Add hash s x).2.table_.length = s.table_.length * 2
      ↔ (s.set_size_ + 1) / s.table_.length > bucket_capacity_)
    ∧ (∀ t : HashSetCoarseGrained T, 0 < t.table_.length →
        (Resize hash t).table_.length = t.table_.length * 2
        ∧ elems (Resize hash t) = elems t
        ∧ Placed hash (Resize hash t).table_) := by
  refine ⟨?_, fun t ht =>
    ⟨Resize_length hash t, Resize_elems hash t ht, Resize_placed hash t⟩⟩
  obtain ⟨h1, h2, h3, hInv2, h5⟩ := Add_absent hash s x hInv hc
  constructor
  · intro hlen
    by_contra hcond
    rw [h5, if_neg hcond] at hlen
    have := hInv.posCap
    omega
  · intro hcond
    rw [h5, if_pos hcond]

theorem C4_witness : Contains_ (fun n => n) (HashSetCoarseGrained.new 1) 0 = false
    ∧ ((Add (fun n => n) (HashSetCoarseGrained.new 1) 0).2.table_.length
          = (HashSetCoarseGrained.new (T := Nat) 1).table_.length * 2
        ↔ ((HashSetCoarseGrained.new (T := Nat) 1).set_size_ + 1)
            / (HashSetCoarseGrained.new (T := Nat) 1).table_.length
          > bucket_capacity_) :=
  ⟨rfl, (C4_resize_policy (fun n => n) (HashSetCoarseGrained.new 1) 0
    (Inv_new (fun n => n) 1 (by decide)) rfl).1⟩

/-- Claim C5 (evaluation at the failing input): the constructor performs no
validation of `initial_capacity`.  Constructing with capacity `0` succeeds
and yields a set with zero buckets — a latent corrupt state (in the C++
source every subsequent operation then computes `hash % 0`), not the
fail-fast rejection the specification requires. -/
theorem C5_constructor_no_validation :
    HashSetCoarseGrained.new (T := Nat) 0
      = { table_ := [], set_size_ := 0 }
    ∧ (HashSetCoarseGrained.new (T := Nat) 0).table_.length = 0 :=
  ⟨rfl, rfl⟩

set_option maxRecDepth 100000 in
/-- Claim C6: literal resize scenario.  Starting from capacity 4
(threshold 4) and sequentially adding the 17 distinct integers `0..16`
(with the identity hash), the truncating threshold check `17 / 4 > 4` is
false, so no resize fires: the capacity is still 4, `Policy` is false on
the final state, and `Contains` returns `true` for all 17 inserted
elements. -/
theorem C6_literal_resize_scenario :
    (run (fun n => n) (HashSetCoarseGrained.new 4)
        ((List.range 17).map Op.add)).table_.length = 4
    ∧ Policy (run (fun n => n) (HashSetCoarseGrained.new 4)
        ((List.range 17).map Op.add)) = false
    ∧ (List.range 17).all (fun i =>
        Contains (fun n => n)
          (run (fun n => n) (HashSetCoarseGrained.new 4)
            ((List.range 17).map Op.add)) i) = true := by
  refine ⟨?_, ?_, ?_⟩ <;> decide

/-- Claim C7: in every reachable state every element resides in the bucket
indexed by its hash modulo the current capacity, and a resize (on any state
with positive capacity, which includes every state a resize actually runs
on) is a pure re-placement: the multiset of elements across all buckets is
identical before and after — no element lost, none duplicated. -/
theorem C7_rehash_fidelity (s t : HashSetCoarseGrained T)
    (hs : Reachable hash s) (ht : 0 < t.table_.length) :
    Placed hash s.table_ ∧ elems (Resize hash t) = elems t :=
  ⟨(Reachable_Inv hash s hs).placed, Resize_elems hash t ht⟩

theorem C7_witness : Reachable (fun n => n) (HashSetCoarseGrained.new 1)
    ∧ 0 < (HashSetCoarseGrained.new (T := Nat) 2).table_.length
    ∧ (Placed (fun n => n) (HashSetCoarseGrained.new (T := Nat) 1).table_
        ∧ elems (Resize (fun n => n) (HashSetCoarseGrained.new 2))
            = elems (HashSetCoarseGrained.new (T := Nat) 2)) :=
  ⟨⟨1, [], by decide, rfl⟩, by decide,
    C7_rehash_fidelity (fun n => n) (HashSetCoarseGrained.new 1)
      (HashSetCoarseGrained.new 2) ⟨1, [], by decide, rfl⟩ (by decide)⟩

/-- Claim C8: data-model invariants in every reachable state: (a) no two
equal elements coexist (the stored multiset has no duplicates), (b) the
size counter equals the sum of all bucket lengths, and (c) the capacity
never decreases across any further sequence of operations. -/
theorem C8_data_model_invariants (s : HashSetCoarseGrained T)
    (h : Reachable hash s) :
    (elems s).Nodup
    ∧ Size s = (s.table_.map List.length).sum
    ∧ ∀ ops : List (Op T), s.table_.length ≤ (run hash s ops).table_.length := by
  have hInv := Reachable_Inv hash s h
  exact ⟨hInv.nodup, size_eq_sum_lengths hash s hInv,
    fun ops => run_length_le hash ops s⟩

theorem C8_witness : Reachable (fun n => n) (HashSetCoarseGrained.new 2)
    ∧ (elems (HashSetCoarseGrained.new (T := Nat) 2)).Nodup
    ∧ Size (HashSetCoarseGrained.new (T := Nat) 2)
        = ((HashSetCoarseGrained.new (T := Nat) 2).table_.map List.length).sum
    ∧ (HashSetCoarseGrained.new (T := Nat) 2).table_.length
        ≤ (run (fun n => n) (HashSetCoarseGrained.new 2) [Op.add 9]).table_.length := by
  have h := C8_data_model_invariants (fun n => n) (HashSetCoarseGrained.new 2)
    ⟨2, [], by decide, rfl⟩
  exact ⟨⟨2, [], by decide, rfl⟩, h.1, h.2.1, h.2.2 [Op.add 9]⟩

/-- Claim C10: frame property of resize.  `Resize` never modifies the size
counter (for any state), so a successful `Add` — including one that
triggers a resize — leaves `Size` exactly one greater than before, and the
element just added is among the stored (rehashed) elements afterwards. -/
theorem C10_resize_frame (s : HashSetCoarseGrained T) (x : T) (hInv : Inv hash s)
    (hc : Contains_ hash s x = false) :
    (∀ t : HashSetCoarseGrained T, (Resize hash t).set_size_ = t.set_size_)
    ∧ Size (Add hash s x).2 = Size s + 1
    ∧ x ∈ elems (Add hash s x).2 := by
  obtain ⟨h1, h2, h3, hInv2, h5⟩ := Add_absent hash s x hInv hc
  exact ⟨fun t => Resize_set_size hash t, h2, by
    rw [h3]
    exact Multiset.mem_add.mpr (Or.inr (Multiset.mem_singleton.mpr rfl))⟩

theorem C10_witness : Contains_ (fun n => n) (HashSetCoarseGrained.new 1) 3 = false
    ∧ (Resize (fun n => n) (HashSetCoarseGrained.new 5)).set_size_
        = (HashSetCoarseGrained.new (T := Nat) 5).set_size_
    ∧ Size (Add (fun n => n) (HashSetCoarseGrained.new 1) 3).2
        = Size (HashSetCoarseGrained.new (T := Nat) 1) + 1
    ∧ 3 ∈ elems (Add (fun n => n) (HashSetCoarseGrained.new 1) 3).2 := by
  have h := C10_resize_frame (fun n => n) (HashSetCoarseGrained.new 1) 3
    (Inv_new (fun n => n) 1 (by decide)) rfl
  exact ⟨rfl, h.1 (HashSetCoarseGrained.new 5), h.2.1, h.2.2⟩

end Claims

end ConcurrentHashSets
